import Mathlib

/-
Verification of the core of `pointToPointPlanarInterpolation.C`
(OpenFOAM 2.2.x, `src/meshTools/triSurface/triSurfaceTools/`).

The embedding follows the source file:
  * `findTime` (lines 266-324): the time-bracket search.  Time values are
    modelled as rationals (the routine only compares them, so any ordered
    field is faithful to the double-precision source).  OpenFOAM `label`s
    are modelled as `ℤ` so that the `-1` sentinels of the source survive.
  * `calcCoordinateSystem` (lines 45-133): basis selection over 3-vectors,
    modelled over `ℝ` (magnitudes take square roots).
  * `calcWeights` (lines 136-212) and the constructors: the parts of the
    pipeline whose code is in this file are embedded directly; the external
    collaborators (`Random`, `coordinateSystem::localPosition`, `boundBox`,
    `triSurfaceTools::delaunay2D`, `triSurfaceTools::calcInterpolationWeights`)
    are not part of this translation unit and are modelled from the spec,
    each marked `Modelled from the spec:` in its doc comment.
-/

/-- A time sample: display name plus scalar value (OpenFOAM `instant`). -/
structure instant where
  name : String
  value : ℚ
deriving DecidableEq

/-- Default `instant` used for (never out-of-range) list indexing. -/
def inst0 : instant := ⟨"", 0⟩

/-- Result of `findTime`: the returned bool plus the two output labels
`lo` and `hi` (`-1` is the source's "none" sentinel). -/
structure BracketResult where
  found : Bool
  lo : ℤ
  hi : ℤ
deriving DecidableEq

/-- The `for` loop of `findTime` (lines 278-288) ranged over the remaining
suffix of the series: `i` is the index of the suffix's head in the full
series; stop at the first sample whose value exceeds `timeVal`, otherwise
record the index in `lo`. -/
def findTimeLoopAux (timeVal : ℚ) : List instant → ℕ → ℤ → ℤ
  | [], _, lo => lo
  | t :: rest, i, lo =>
    if t.value > timeVal then lo else findTimeLoopAux timeVal rest (i + 1) (i : ℤ)

/-- The `for` loop of `findTime` (lines 278-288): scan from index `i`
upwards; stop at the first sample whose value exceeds `timeVal`, otherwise
record the index in `lo`. -/
def findTimeLoop (times : List instant) (timeVal : ℚ) (i : ℕ) (lo : ℤ) : ℤ :=
  findTimeLoopAux timeVal (times.drop i) i lo

/-- `pointToPointPlanarInterpolation::findTime` (lines 266-324):
`lo` starts at `startSampleTime`, `hi` at `-1`; the loop scans from
`startSampleTime + 1`; `lo == -1` is reported as `found = false`. -/
def findTime (times : List instant) (startSampleTime : ℤ) (timeVal : ℚ) :
    BracketResult :=
  let lo := findTimeLoop times timeVal (startSampleTime + 1).toNat startSampleTime
  if lo = -1 then
    ⟨false, lo, -1⟩
  else if lo < (times.length : ℤ) - 1 then
    ⟨true, lo, lo + 1⟩
  else
    ⟨true, lo, -1⟩

/-- An ascending time series (spec: "ordered, non-decreasing sequence"). -/
def ascendingSeries (times : List instant) : Prop :=
  List.Pairwise (fun a b => a.value ≤ b.value) times

instance (times : List instant) : Decidable (ascendingSeries times) := by
  unfold ascendingSeries
  infer_instance

/-- The example series `[0,1,2,5]` of the spec. -/
def exSeries : List instant :=
  [⟨"0", 0⟩, ⟨"1", 1⟩, ⟨"2", 2⟩, ⟨"5", 5⟩]

theorem getD_drop (times : List instant) :
    ∀ (i k : ℕ), (times.drop i).getD k inst0 = times.getD (i + k) inst0 := by
  induction times with
  | nil => intro i k; simp [List.drop_nil]
  | cons t rest ih =>
    intro i k
    cases i with
    | zero => simp
    | succ i =>
      have : i + 1 + k = (i + k) + 1 := by omega
      rw [this]
      simp only [List.drop_succ_cons, List.getD_cons_succ]
      exact ih i k

theorem findTimeLoopAux_notset (v : ℚ) :
    ∀ (l : List instant) (i : ℕ) (lo : ℤ),
      (∀ k, k < l.length → v < (l.getD k inst0).value) →
      findTimeLoopAux v l i lo = lo := by
  intro l
  induction l with
  | nil => intro i lo _; rfl
  | cons t rest ih =>
    intro i lo h
    have h0 : v < t.value := by simpa using h 0 (by simp)
    simp [findTimeLoopAux, h0]

theorem findTimeLoopAux_cases (v : ℚ) :
    ∀ (l : List instant) (i : ℕ) (lo : ℤ),
      findTimeLoopAux v l i lo = lo ∨
      ∃ k, k < l.length ∧ findTimeLoopAux v l i lo = ((i + k : ℕ) : ℤ) := by
  intro l
  induction l with
  | nil => intro i lo; exact Or.inl rfl
  | cons t rest ih =>
    intro i lo
    by_cases hv : t.value > v
    · exact Or.inl (by simp [findTimeLoopAux, hv])
    · right
      have hrec : findTimeLoopAux v (t :: rest) i lo
          = findTimeLoopAux v rest (i + 1) (i : ℤ) := by
        simp [findTimeLoopAux, hv]
      rcases ih (i + 1) (i : ℤ) with h | ⟨k, hk, hres⟩
      · exact ⟨0, by simp, by rw [hrec, h]; simp⟩
      · refine ⟨k + 1, by simpa using hk, ?_⟩
        rw [hrec, hres]
        congr 1
        omega

theorem findTimeLoopAux_max (v : ℚ) :
    ∀ (l : List instant) (i : ℕ) (lo : ℤ),
      l.Pairwise (fun a b => a.value ≤ b.value) →
      (∃ k, k < l.length ∧ (l.getD k inst0).value ≤ v) →
      ∃ k, k < l.length ∧ findTimeLoopAux v l i lo = ((i + k : ℕ) : ℤ) ∧
        (l.getD k inst0).value ≤ v ∧
        ∀ j, j < l.length → (l.getD j inst0).value ≤ v → j ≤ k := by
  intro l
  induction l with
  | nil => intro i lo _ h; exact absurd h (by simp)
  | cons t rest ih =>
    intro i lo hpw hex
    obtain ⟨ht, hrest⟩ := List.pairwise_cons.mp hpw
    by_cases hv : t.value > v
    · exfalso
      obtain ⟨k, hk, hkv⟩ := hex
      cases k with
      | zero => simp at hkv; exact absurd hkv (not_le.mpr hv)
      | succ k =>
        have hk' : k < rest.length := by simpa using hk
        have hmem : rest.getD k inst0 ∈ rest := by
          rw [List.getD_eq_getElem rest inst0 hk']
          exact List.getElem_mem hk'
        have : t.value ≤ (rest.getD k inst0).value := ht _ hmem
        simp only [List.getD_cons_succ] at hkv
        exact absurd (le_trans this hkv) (not_le.mpr hv)
    · have hrec : findTimeLoopAux v (t :: rest) i lo
          = findTimeLoopAux v rest (i + 1) (i : ℤ) := by
        simp [findTimeLoopAux, hv]
      by_cases hex' : ∃ k, k < rest.length ∧ (rest.getD k inst0).value ≤ v
      · obtain ⟨k, hk, hres, hkv, hmax⟩ := ih (i + 1) (i : ℤ) hrest hex'
        refine ⟨k + 1, by simpa using Nat.succ_lt_succ hk, ?_, by simpa using hkv, ?_⟩
        · rw [hrec, hres]; congr 1; omega
        · intro j hj hjv
          cases j with
          | zero => omega
          | succ j =>
            have : j ≤ k := hmax j (by simpa using hj) (by simpa using hjv)
            omega
      · have hall : ∀ k, k < rest.length → v < (rest.getD k inst0).value := by
          intro k hk
          by_contra hc
          exact hex' ⟨k, hk, not_lt.mp hc⟩
        refine ⟨0, by simp, ?_, by simpa using not_lt.mp hv, ?_⟩
        · rw [hrec, findTimeLoopAux_notset v rest (i + 1) (i : ℤ) hall]
          simp
        · intro j hj hjv
          cases j with
          | zero => exact le_refl 0
          | succ j =>
            exfalso
            have hj' : j < rest.length := by simpa using hj
            simp only [List.getD_cons_succ] at hjv
            exact absurd hjv (not_le.mpr (hall j hj'))

theorem findTimeLoopAux_congr (v : ℚ) :
    ∀ (l l' : List instant) (i : ℕ) (lo : ℤ),
      l.length = l'.length →
      (∀ k, k < l.length → l.getD k inst0 = l'.getD k inst0) →
      findTimeLoopAux v l i lo = findTimeLoopAux v l' i lo := by
  intro l
  induction l with
  | nil =>
    intro l' i lo hlen _
    have : l' = [] := List.length_eq_zero.mp hlen.symm
    rw [this]
  | cons t rest ih =>
    intro l' i lo hlen hagree
    cases l' with
    | nil => simp at hlen
    | cons t' rest' =>
      have ht : t = t' := by simpa using hagree 0 (by simp)
      have hlen' : rest.length = rest'.length := by simpa using hlen
      have hagree' : ∀ k, k < rest.length → rest.getD k inst0 = rest'.getD k inst0 := by
        intro k hk
        simpa using hagree (k + 1) (by simpa using Nat.succ_lt_succ hk)
      by_cases hv : t.value > v
      · simp [findTimeLoopAux, hv, ← ht]
      · simp only [findTimeLoopAux, hv, if_false, ← ht]
        exact ih rest' (i + 1) (i : ℤ) hlen' hagree'

theorem findTimeLoop_notset (times : List instant) (v : ℚ) (i : ℕ) (lo : ℤ)
    (h : ∀ j, i ≤ j → j < times.length → v < (times.getD j inst0).value) :
    findTimeLoop times v i lo = lo := by
  apply findTimeLoopAux_notset
  intro k hk
  rw [getD_drop]
  have hk' : k < times.length - i := by simpa using hk
  exact h (i + k) (by omega) (by omega)

theorem findTimeLoop_cases (times : List instant) (v : ℚ) (i : ℕ) (lo : ℤ) :
    findTimeLoop times v i lo = lo ∨
    ∃ k, i ≤ k ∧ k < times.length ∧ findTimeLoop times v i lo = (k : ℤ) := by
  rcases findTimeLoopAux_cases v (times.drop i) i lo with h | ⟨k, hk, hres⟩
  · exact Or.inl h
  · have hk' : k < times.length - i := by simpa using hk
    exact Or.inr ⟨i + k, by omega, by omega, hres⟩

theorem findTimeLoop_max (times : List instant) (v : ℚ) (i : ℕ) (lo : ℤ)
    (hasc : ascendingSeries times)
    (hex : ∃ k, i ≤ k ∧ k < times.length ∧ (times.getD k inst0).value ≤ v) :
    ∃ k : ℕ, findTimeLoop times v i lo = (k : ℤ) ∧ i ≤ k ∧ k < times.length ∧
      (times.getD k inst0).value ≤ v ∧
      ∀ j, i ≤ j → j < times.length → (times.getD j inst0).value ≤ v → j ≤ k := by
  have hpw : (times.drop i).Pairwise (fun a b => a.value ≤ b.value) :=
    List.Pairwise.drop hasc
  have hex' : ∃ k, k < (times.drop i).length ∧ ((times.drop i).getD k inst0).value ≤ v := by
    obtain ⟨k, hik, hk, hkv⟩ := hex
    refine ⟨k - i, by simp; omega, ?_⟩
    rw [getD_drop]
    have : i + (k - i) = k := by omega
    rw [this]; exact hkv
  obtain ⟨k, hk, hres, hkv, hmax⟩ := findTimeLoopAux_max v (times.drop i) i lo hpw hex'
  have hk' : k < times.length - i := by simpa using hk
  rw [getD_drop] at hkv
  refine ⟨i + k, hres, by omega, by omega, hkv, ?_⟩
  intro j hij hj hjv
  have : j - i ≤ k := by
    apply hmax (j - i) (by simp; omega)
    rw [getD_drop]
    have : i + (j - i) = j := by omega
    rw [this]; exact hjv
  omega

theorem findTime_congr (ts1 ts2 : List instant) (start : ℤ) (v : ℚ)
    (hstart : -1 ≤ start) (hlen : ts1.length = ts2.length)
    (hagree : ∀ j : ℕ, start < (j : ℤ) → j < ts1.length →
      ts1.getD j inst0 = ts2.getD j inst0) :
    findTime ts1 start v = findTime ts2 start v := by
  have hloop : findTimeLoop ts1 v (start + 1).toNat start
      = findTimeLoop ts2 v (start + 1).toNat start := by
    unfold findTimeLoop
    apply findTimeLoopAux_congr
    · simp [hlen]
    · intro k hk
      rw [getD_drop, getD_drop]
      have hk' : k < ts1.length - (start + 1).toNat := by simpa using hk
      apply hagree
      · push_cast; omega
      · omega
  simp only [findTime]
  rw [hloop, hlen]

theorem findTime_lo_ge (times : List instant) (start : ℤ) (v : ℚ)
    (hstart : -1 ≤ start) : -1 ≤ (findTime times start v).lo := by
  have h : -1 ≤ findTimeLoop times v (start + 1).toNat start := by
    rcases findTimeLoop_cases times v (start + 1).toNat start with h | ⟨k, _, _, h⟩
    · omega
    · rw [h]; omega
  simp only [findTime]
  split
  · simpa using h
  · split <;> simpa using h

theorem findTime_eval (times : List instant) (start : ℤ) (v : ℚ) (k : ℕ)
    (hL : findTimeLoop times v (start + 1).toNat start = (k : ℤ)) :
    findTime times start v =
      if (k : ℤ) < (times.length : ℤ) - 1 then ⟨true, (k : ℤ), (k : ℤ) + 1⟩
      else ⟨true, (k : ℤ), -1⟩ := by
  have hne : ¬((k : ℤ) = -1) := by omega
  simp only [findTime]
  rw [hL]
  simp [hne]

/-- C2, counterexample: the claim states that
`findBracket([0,1,2,5], hint=0, value=-1)` returns `found = false`, but the
code initialises `lo` to the hint without examining `times[hint]`, so it
returns `found = true` with `lo = 0`, `hi = 1`. -/
theorem findTime_hint0_negquery_found_true :
    findTime exSeries 0 (-1) = ⟨true, 0, 1⟩ := by decide

/-- C2 (amended): `findTime` reports `found = false` exactly when the hint is
the initial `-1` sentinel and no sample at all lies at or below the query
value (the series is empty or already its first value exceeds the query).
For a hint `≥ 0`, `lo` starts at the hint itself — `times[hint]` is never
examined — so `found` is `true`.  The condition is returned as data in the
result, never as a fatal failure (the fatal branch in the source is
commented out). -/
theorem findTime_found_false_iff (times : List instant) (start : ℤ) (v : ℚ)
    (hstart : -1 ≤ start) :
    (findTime times start v).found = false ↔
      (start = -1 ∧ (times.length = 0 ∨ v < (times.getD 0 inst0).value)) := by
  have hfound : (findTime times start v).found = false ↔
      findTimeLoop times v (start + 1).toNat start = -1 := by
    simp only [findTime]
    by_cases hL : findTimeLoop times v (start + 1).toNat start = -1
    · simp [hL]
    · simp only [hL, if_false]
      split <;> simp [hL]
  rw [hfound]
  constructor
  · intro h
    rcases findTimeLoop_cases times v (start + 1).toNat start with hc | ⟨k, _, _, hc⟩
    · have hstart' : start = -1 := by rw [hc] at h; exact h
      refine ⟨hstart', ?_⟩
      by_cases hlen : times.length = 0
      · exact Or.inl hlen
      · right
        by_contra hv
        have hv' : (times.getD 0 inst0).value ≤ v := not_lt.mp hv
        subst hstart'
        have hz : ((-1 : ℤ) + 1).toNat = 0 := by norm_num
        rw [hz] at h
        cases times with
        | nil => simp at hlen
        | cons t rest =>
          have hL0 : findTimeLoop (t :: rest) v 0 (-1)
              = findTimeLoopAux v rest 1 (0 : ℤ) := by
            unfold findTimeLoop
            rw [List.drop_zero]
            have : ¬(t.value > v) := by
              simp only [List.getD_cons_zero] at hv'
              exact not_lt.mpr hv'
            simp [findTimeLoopAux, this]
          rw [hL0] at h
          rcases findTimeLoopAux_cases v rest 1 (0 : ℤ) with h2 | ⟨k, _, h2⟩ <;>
            rw [h2] at h <;> omega
    · rw [hc] at h; omega
  · rintro ⟨hstart', hor⟩
    subst hstart'
    have hz : ((-1 : ℤ) + 1).toNat = 0 := by norm_num
    rw [hz]
    rcases hor with hlen | hv
    · have : times = [] := List.length_eq_zero.mp hlen
      subst this
      rfl
    · cases times with
      | nil => rfl
      | cons t rest =>
        have : t.value > v := by simpa [List.getD_cons_zero] using hv
        unfold findTimeLoop
        rw [List.drop_zero]
        simp [findTimeLoopAux, this]

theorem findTime_found_false_iff_witness :
    (findTime exSeries (-1) (-1)).found = false :=
  (findTime_found_false_iff exSeries (-1) (-1) (by norm_num)).mpr
    ⟨rfl, Or.inr (by norm_num [exSeries, inst0])⟩

/-- C3: for an ascending series, whenever some index at or after the hint has
value at most the query, `findTime` returns `found = true`, `lo` equal to the
largest such index, `hi = lo + 1` when `lo` is not the last index and
`hi = -1` (the "none" sentinel) when it is; and the two concrete examples of
the spec, `findBracket([0,1,2,5], hint=0, value=3) = (true, 2, 3)` and
`findBracket([0,1,2,5], hint=0, value=6) = (true, 3, none)`, hold. -/
theorem findTime_bracket_correct :
    (∀ (times : List instant) (start : ℤ) (v : ℚ),
      ascendingSeries times → -1 ≤ start →
      (∃ k : ℕ, start ≤ (k : ℤ) ∧ k < times.length ∧
        (times.getD k inst0).value ≤ v) →
      ∃ k : ℕ, (findTime times start v).found = true ∧
        (findTime times start v).lo = (k : ℤ) ∧
        start ≤ (k : ℤ) ∧ k < times.length ∧ (times.getD k inst0).value ≤ v ∧
        (∀ j : ℕ, start ≤ (j : ℤ) → j < times.length →
          (times.getD j inst0).value ≤ v → j ≤ k) ∧
        ((k : ℤ) < (times.length : ℤ) - 1 →
          (findTime times start v).hi = (k : ℤ) + 1) ∧
        ((k : ℤ) = (times.length : ℤ) - 1 → (findTime times start v).hi = -1)) ∧
    findTime exSeries 0 3 = ⟨true, 2, 3⟩ ∧
    findTime exSeries 0 6 = ⟨true, 3, -1⟩ := by
  refine ⟨?_, by decide, by decide⟩
  intro times start v hasc hstart hex
  by_cases hex' : ∃ k : ℕ, (start + 1).toNat ≤ k ∧ k < times.length ∧
      (times.getD k inst0).value ≤ v
  · obtain ⟨k, hL, hik, hk, hkv, hmax⟩ :=
      findTimeLoop_max times v (start + 1).toNat start hasc hex'
    have he := findTime_eval times start v k hL
    refine ⟨k, ?_, ?_, by omega, hk, hkv, ?_, ?_, ?_⟩
    · rw [he]; split <;> rfl
    · rw [he]; split <;> rfl
    · intro j hj1 hj2 hjv
      by_cases hj3 : (start + 1).toNat ≤ j
      · exact hmax j hj3 hj2 hjv
      · omega
    · intro h; rw [he, if_pos h]
    · intro h; rw [he, if_neg (by omega)]
  · have hall : ∀ j, (start + 1).toNat ≤ j → j < times.length →
        v < (times.getD j inst0).value := by
      intro j h1 h2
      by_contra hc
      exact hex' ⟨j, h1, h2, not_lt.mp hc⟩
    have hL0 : findTimeLoop times v (start + 1).toNat start = start :=
      findTimeLoop_notset times v (start + 1).toNat start hall
    obtain ⟨k0, hk0a, hk0b, hk0v⟩ := hex
    have hk0i : ¬((start + 1).toNat ≤ k0) := fun h => hex' ⟨k0, h, hk0b, hk0v⟩
    have hks : (k0 : ℤ) = start := by omega
    have hL : findTimeLoop times v (start + 1).toNat start = (k0 : ℤ) := by
      rw [hL0, hks]
    have he := findTime_eval times start v k0 hL
    refine ⟨k0, ?_, ?_, by omega, hk0b, hk0v, ?_, ?_, ?_⟩
    · rw [he]; split <;> rfl
    · rw [he]; split <;> rfl
    · intro j hj1 hj2 hjv
      by_cases hj3 : (start + 1).toNat ≤ j
      · exact absurd ⟨j, hj3, hj2, hjv⟩ hex'
      · omega
    · intro h; rw [he, if_pos h]
    · intro h; rw [he, if_neg (by omega)]

theorem findTime_bracket_correct_witness :
    ∃ k : ℕ, (findTime exSeries 0 3).found = true ∧
      (findTime exSeries 0 3).lo = (k : ℤ) ∧
      (0 : ℤ) ≤ (k : ℤ) ∧ k < exSeries.length ∧
      (exSeries.getD k inst0).value ≤ 3 ∧
      (∀ j : ℕ, (0 : ℤ) ≤ (j : ℤ) → j < exSeries.length →
        (exSeries.getD j inst0).value ≤ 3 → j ≤ k) ∧
      ((k : ℤ) < (exSeries.length : ℤ) - 1 →
        (findTime exSeries 0 3).hi = (k : ℤ) + 1) ∧
      ((k : ℤ) = (exSeries.length : ℤ) - 1 → (findTime exSeries 0 3).hi = -1) :=
  findTime_bracket_correct.1 exSeries 0 3 (by decide) (by norm_num)
    ⟨2, by norm_num, by decide, by decide⟩

/-- C9: the result of `findTime` depends only on the series entries at
indices strictly greater than the hint (times the series length): two
equal-length series agreeing above the hint give identical results; and
consequently a chained call that reuses the returned `lo` as its hint
depends only on entries at indices strictly greater than that `lo`. -/
theorem findTime_ignores_entries_before_hint :
    (∀ (ts1 ts2 : List instant) (start : ℤ) (v : ℚ),
      -1 ≤ start → ts1.length = ts2.length →
      (∀ j : ℕ, start < (j : ℤ) → j < ts1.length →
        ts1.getD j inst0 = ts2.getD j inst0) →
      findTime ts1 start v = findTime ts2 start v) ∧
    (∀ (ts1 ts2 : List instant) (start : ℤ) (v v' : ℚ),
      -1 ≤ start → ts1.length = ts2.length →
      (∀ j : ℕ, (findTime ts1 start v).lo < (j : ℤ) → j < ts1.length →
        ts1.getD j inst0 = ts2.getD j inst0) →
      findTime ts1 ((findTime ts1 start v).lo) v'
        = findTime ts2 ((findTime ts1 start v).lo) v') :=
  ⟨fun ts1 ts2 start v h1 h2 h3 => findTime_congr ts1 ts2 start v h1 h2 h3,
   fun ts1 ts2 start v v' h1 h2 h3 =>
     findTime_congr ts1 ts2 _ v' (findTime_lo_ge ts1 start v h1) h2 h3⟩

/-- A series differing from `exSeries` only at index 0 (at the hint). -/
def exSeriesAlt : List instant :=
  [⟨"9", 9⟩, ⟨"1", 1⟩, ⟨"2", 2⟩, ⟨"5", 5⟩]

theorem findTime_ignores_entries_before_hint_witness :
    findTime exSeries 0 3 = findTime exSeriesAlt 0 3 :=
  findTime_ignores_entries_before_hint.1 exSeries exSeriesAlt 0 3 (by norm_num)
    (by decide)
    (by
      intro j hj1 hj2
      have hj2' : j < 4 := by simpa [exSeries] using hj2
      have hj1' : 0 < j := by exact_mod_cast hj1
      interval_cases j <;> rfl)

/-- A 3-component vector (OpenFOAM `vector` / `point`), generic in the scalar
type: `ℝ` for the coordinate-system geometry, `ℚ` for the exact-arithmetic
perturbation pipeline. -/
structure Vec3 (α : Type) where
  x : α
  y : α
  z : α
deriving DecidableEq

instance {α : Type} [Add α] : Add (Vec3 α) :=
  ⟨fun a b => ⟨a.x + b.x, a.y + b.y, a.z + b.z⟩⟩

instance {α : Type} [Sub α] : Sub (Vec3 α) :=
  ⟨fun a b => ⟨a.x - b.x, a.y - b.y, a.z - b.z⟩⟩

instance {α : Type} [Zero α] : Zero (Vec3 α) := ⟨⟨0, 0, 0⟩⟩

instance {α : Type} [Mul α] : SMul α (Vec3 α) :=
  ⟨fun s v => ⟨s * v.x, s * v.y, s * v.z⟩⟩

@[simp] theorem Vec3.add_x {α : Type} [Add α] (a b : Vec3 α) :
    (a + b).x = a.x + b.x := rfl
@[simp] theorem Vec3.add_y {α : Type} [Add α] (a b : Vec3 α) :
    (a + b).y = a.y + b.y := rfl
@[simp] theorem Vec3.add_z {α : Type} [Add α] (a b : Vec3 α) :
    (a + b).z = a.z + b.z := rfl
@[simp] theorem Vec3.sub_x {α : Type} [Sub α] (a b : Vec3 α) :
    (a - b).x = a.x - b.x := rfl
@[simp] theorem Vec3.sub_y {α : Type} [Sub α] (a b : Vec3 α) :
    (a - b).y = a.y - b.y := rfl
@[simp] theorem Vec3.sub_z {α : Type} [Sub α] (a b : Vec3 α) :
    (a - b).z = a.z - b.z := rfl
@[simp] theorem Vec3.smul_x {α : Type} [Mul α] (s : α) (v : Vec3 α) :
    (s • v).x = s * v.x := rfl
@[simp] theorem Vec3.smul_y {α : Type} [Mul α] (s : α) (v : Vec3 α) :
    (s • v).y = s * v.y := rfl
@[simp] theorem Vec3.smul_z {α : Type} [Mul α] (s : α) (v : Vec3 α) :
    (s • v).z = s * v.z := rfl
@[simp] theorem Vec3.zero_x {α : Type} [Zero α] : (0 : Vec3 α).x = 0 := rfl
@[simp] theorem Vec3.zero_y {α : Type} [Zero α] : (0 : Vec3 α).y = 0 := rfl
@[simp] theorem Vec3.zero_z {α : Type} [Zero α] : (0 : Vec3 α).z = 0 := rfl

theorem Vec3.ext_comp {α : Type} {a b : Vec3 α}
    (hx : a.x = b.x) (hy : a.y = b.y) (hz : a.z = b.z) : a = b := by
  cases a; cases b; simp_all

/-- Inner product (OpenFOAM `operator&`). -/
def Vec3.dot {α : Type} [Mul α] [Add α] (a b : Vec3 α) : α :=
  a.x * b.x + a.y * b.y + a.z * b.z

/-- Cross product (OpenFOAM `operator^`). -/
def Vec3.cross {α : Type} [Mul α] [Sub α] (a b : Vec3 α) : Vec3 α :=
  ⟨a.y * b.z - a.z * b.y, a.z * b.x - a.x * b.z, a.x * b.y - a.y * b.x⟩

/-- Division of a vector by a scalar (OpenFOAM `operator/`); division by zero
is total in the model (each component becomes `0`). -/
def Vec3.sdiv {α : Type} [Div α] (v : Vec3 α) (s : α) : Vec3 α :=
  ⟨v.x / s, v.y / s, v.z / s⟩

/-- A 2-component vector (OpenFOAM `vector2D`). -/
structure Vec2 (α : Type) where
  x : α
  y : α
deriving DecidableEq

instance {α : Type} [Sub α] : Sub (Vec2 α) := ⟨fun a b => ⟨a.x - b.x, a.y - b.y⟩⟩

@[simp] theorem Vec2.fst_sub {α : Type} [Sub α] (a b : Vec2 α) :
    (a - b).x = a.x - b.x := rfl
@[simp] theorem Vec2.snd_sub {α : Type} [Sub α] (a b : Vec2 α) :
    (a - b).y = a.y - b.y := rfl

/-- Twice the signed area spanned by `u` and `v`. -/
def det2 (u v : Vec2 ℚ) : ℚ := u.x * v.y - u.y * v.x

/-- Modelled from the spec: `triSurfaceTools::calcInterpolationWeights`
(called at lines 205-211) is not part of this translation unit; per spec
§4.2 step 6, the weights of a destination point located in a containing
triangle `a b c` are the linear (barycentric) interpolation coefficients
against that triangle's three vertices. -/
def baryWeights (a b c p : Vec2 ℚ) : ℚ × ℚ × ℚ :=
  (det2 (b - p) (c - p) / det2 (b - a) (c - a),
   det2 (c - p) (a - p) / det2 (b - a) (c - a),
   det2 (a - p) (b - p) / det2 (b - a) (c - a))

/-- The point `p` lies strictly inside the triangle `a b c`: the three signed
sub-areas all carry the same strict sign. -/
def strictlyInsideTri (a b c p : Vec2 ℚ) : Prop :=
  (0 < det2 (b - p) (c - p) ∧ 0 < det2 (c - p) (a - p) ∧
    0 < det2 (a - p) (b - p)) ∨
  (det2 (b - p) (c - p) < 0 ∧ det2 (c - p) (a - p) < 0 ∧
    det2 (a - p) (b - p) < 0)

instance (a b c p : Vec2 ℚ) : Decidable (strictlyInsideTri a b c p) := by
  unfold strictlyInsideTri
  infer_instance

/-- C4: for a destination point strictly inside its containing triangle, the
stored barycentric weights are all non-negative and sum to exactly 1, hence
in particular to 1 within the 1e-6 tolerance. -/
theorem baryWeights_nonneg_sum_one (a b c p : Vec2 ℚ)
    (h : strictlyInsideTri a b c p) :
    0 ≤ (baryWeights a b c p).1 ∧ 0 ≤ (baryWeights a b c p).2.1 ∧
    0 ≤ (baryWeights a b c p).2.2 ∧
    (baryWeights a b c p).1 + (baryWeights a b c p).2.1
      + (baryWeights a b c p).2.2 = 1 ∧
    |(baryWeights a b c p).1 + (baryWeights a b c p).2.1
      + (baryWeights a b c p).2.2 - 1| ≤ 1 / 1000000 := by
  have key : det2 (b - p) (c - p) + det2 (c - p) (a - p) + det2 (a - p) (b - p)
      = det2 (b - a) (c - a) := by
    simp only [det2, Vec2.fst_sub, Vec2.snd_sub]
    ring
  rcases h with ⟨h1, h2, h3⟩ | ⟨h1, h2, h3⟩
  · have hd : 0 < det2 (b - a) (c - a) := by rw [← key]; linarith
    have hsum : (baryWeights a b c p).1 + (baryWeights a b c p).2.1
        + (baryWeights a b c p).2.2 = 1 := by
      simp only [baryWeights]
      rw [div_add_div_same, div_add_div_same, key, div_self (ne_of_gt hd)]
    refine ⟨div_nonneg h1.le hd.le, div_nonneg h2.le hd.le,
      div_nonneg h3.le hd.le, hsum, ?_⟩
    rw [hsum]
    norm_num
  · have hd : det2 (b - a) (c - a) < 0 := by rw [← key]; linarith
    have hsum : (baryWeights a b c p).1 + (baryWeights a b c p).2.1
        + (baryWeights a b c p).2.2 = 1 := by
      simp only [baryWeights]
      rw [div_add_div_same, div_add_div_same, key, div_self (ne_of_lt hd)]
    refine ⟨(div_pos_iff.mpr (Or.inr ⟨h1, hd⟩)).le,
      (div_pos_iff.mpr (Or.inr ⟨h2, hd⟩)).le,
      (div_pos_iff.mpr (Or.inr ⟨h3, hd⟩)).le, hsum, ?_⟩
    rw [hsum]
    norm_num

theorem baryWeights_nonneg_sum_one_witness :
    0 ≤ (baryWeights ⟨0, 0⟩ ⟨1, 0⟩ ⟨0, 1⟩ ⟨1/4, 1/4⟩).1 ∧
    0 ≤ (baryWeights ⟨0, 0⟩ ⟨1, 0⟩ ⟨0, 1⟩ ⟨1/4, 1/4⟩).2.1 ∧
    0 ≤ (baryWeights ⟨0, 0⟩ ⟨1, 0⟩ ⟨0, 1⟩ ⟨1/4, 1/4⟩).2.2 ∧
    (baryWeights ⟨0, 0⟩ ⟨1, 0⟩ ⟨0, 1⟩ ⟨1/4, 1/4⟩).1
      + (baryWeights ⟨0, 0⟩ ⟨1, 0⟩ ⟨0, 1⟩ ⟨1/4, 1/4⟩).2.1
      + (baryWeights ⟨0, 0⟩ ⟨1, 0⟩ ⟨0, 1⟩ ⟨1/4, 1/4⟩).2.2 = 1 ∧
    |(baryWeights ⟨0, 0⟩ ⟨1, 0⟩ ⟨0, 1⟩ ⟨1/4, 1/4⟩).1
      + (baryWeights ⟨0, 0⟩ ⟨1, 0⟩ ⟨0, 1⟩ ⟨1/4, 1/4⟩).2.1
      + (baryWeights ⟨0, 0⟩ ⟨1, 0⟩ ⟨0, 1⟩ ⟨1/4, 1/4⟩).2.2 - 1| ≤ 1 / 1000000 :=
  baryWeights_nonneg_sum_one ⟨0, 0⟩ ⟨1, 0⟩ ⟨0, 1⟩ ⟨1/4, 1/4⟩ (by
    left
    refine ⟨?_, ?_, ?_⟩ <;> norm_num [det2])

/-- Modelled from the spec: the OpenFOAM `Random` generator (line 160) is not
part of this translation unit.  It is a deterministic pseudorandom stream:
the state is set by the seed at construction and every draw is a pure
function of the state. -/
structure Foam.Random where
  state : ℕ
deriving DecidableEq

/-- Modelled from the spec: `Random(seed)` seeds the stream. -/
def mkRandom (seed : ℕ) : Foam.Random := ⟨seed⟩

/-- Modelled from the spec: one pseudorandom draw in `[0,1)` together with the
successor state (a linear congruential step; any fixed deterministic rule
realises the spec's requirement). -/
def Foam.Random.scalar01 (r : Foam.Random) : ℚ × Foam.Random :=
  let s : ℕ := (25214903917 * r.state + 11) % (2 ^ 48)
  ((s : ℚ) / (2 ^ 48 : ℚ), ⟨s⟩)

/-- Modelled from the spec: `Random::position(min, max)` — a pseudorandom
point inside the bounding box, one draw per component. -/
def Foam.Random.position (r : Foam.Random) (lo hi : Vec3 ℚ) :
    Vec3 ℚ × Foam.Random :=
  let prx := r.scalar01
  let pry := prx.2.scalar01
  let prz := pry.2.scalar01
  (⟨lo.x + prx.1 * (hi.x - lo.x), lo.y + pry.1 * (hi.y - lo.y),
    lo.z + prz.1 * (hi.z - lo.z)⟩, prz.2)

/-- Modelled from the spec: the min corner of `boundBox(localVertices, true)`
(line 148); the fold seed is OpenFOAM's inverted box. -/
def boundBoxMin (ps : List (Vec3 ℚ)) : Vec3 ℚ :=
  ps.foldl (fun a v => ⟨min a.x v.x, min a.y v.y, min a.z v.z⟩)
    ⟨10 ^ 15, 10 ^ 15, 10 ^ 15⟩

/-- Modelled from the spec: the max corner of `boundBox(localVertices, true)`. -/
def boundBoxMax (ps : List (Vec3 ℚ)) : Vec3 ℚ :=
  ps.foldl (fun a v => ⟨max a.x v.x, max a.y v.y, max a.z v.z⟩)
    ⟨-10 ^ 15, -10 ^ 15, -10 ^ 15⟩

/-- `boundBox::midpoint` (line 149). -/
def boundBoxMid (lo hi : Vec3 ℚ) : Vec3 ℚ :=
  ⟨(lo.x + hi.x) / 2, (lo.y + hi.y) / 2, (lo.z + hi.z) / 2⟩

/-- The perturbation loop of `calcWeights` (lines 161-166): each local vertex
is shifted by `perturb * (rndGen.position(bb.min(), bb.max()) - bbMid)`,
threading the generator state through the iterations. -/
def perturbLoop (perturb : ℚ) (bmin bmax bmid : Vec3 ℚ) :
    List (Vec3 ℚ) → Foam.Random → List (Vec3 ℚ)
  | [], _ => []
  | v :: rest, r =>
    let pr := r.position bmin bmax
    (v + perturb • (pr.1 - bmid)) :: perturbLoop perturb bmin bmax bmid rest pr.2

/-- The perturbed local vertices of `calcWeights` (lines 142-166): project the
source points into the frame (`coordinateSystem::localPosition` is modelled
from the spec as a caller-supplied pure projection), compute the local
bounding box, then run the perturbation loop with a generator freshly seeded
with the literal constant `123456` (line 160).  The `ambient` argument models
whatever pseudorandom state the process already carries; the code never
consults it. -/
def perturbedLocalVertices (localPosition : Vec3 ℚ → Vec3 ℚ)
    (ambient : Foam.Random)
    (sourcePoints : List (Vec3 ℚ)) (perturb : ℚ) : List (Vec3 ℚ) :=
  let localVertices := sourcePoints.map localPosition
  let bmin := boundBoxMin localVertices
  let bmax := boundBoxMax localVertices
  perturbLoop perturb bmin bmax (boundBoxMid bmin bmax) localVertices
    (mkRandom 123456)

/-- The same pipeline with the seed made explicit, used to state which seed
the code bakes in. -/
def perturbedLocalVerticesSeeded (seed : ℕ)
    (localPosition : Vec3 ℚ → Vec3 ℚ) (sourcePoints : List (Vec3 ℚ))
    (perturb : ℚ) : List (Vec3 ℚ) :=
  let localVertices := sourcePoints.map localPosition
  let bmin := boundBoxMin localVertices
  let bmax := boundBoxMax localVertices
  perturbLoop perturb bmin bmax (boundBoxMid bmin bmax) localVertices
    (mkRandom seed)

/-- `calcWeights` (lines 136-212): perturb the projected source vertices, keep
their first two local components as the 2D triangulation input (lines
169-174), project the destination points (lines 178-185), and hand both to
the triangulation-plus-weights computation (`delaunay2D` and
`calcInterpolationWeights`, lines 176 and 205-211, modelled from the spec as
an arbitrary pure function `interpWeights`, their code being outside this
translation unit). -/
def calcWeights {W : Type} (localPosition : Vec3 ℚ → Vec3 ℚ)
    (interpWeights : List (Vec2 ℚ) → List (Vec3 ℚ) → W)
    (ambient : Foam.Random)
    (sourcePoints destPoints : List (Vec3 ℚ)) (perturb : ℚ) : W :=
  let perturbed := perturbedLocalVertices localPosition ambient sourcePoints perturb
  let localVertices2D := perturbed.map (fun v => (⟨v.x, v.y⟩ : Vec2 ℚ))
  let localFaceCentres := destPoints.map localPosition
  interpWeights localVertices2D localFaceCentres

/-- C5: engine construction is deterministic.  The weight table and the
perturbed vertex positions do not depend on the ambient pseudorandom state of
the invoking process (so any two invocations on identical source points,
destination points and perturbation fraction agree, regardless of invocation
order or process), because the generator is freshly seeded with the fixed
constant `123456` on every construction — the third conjunct pins the seed. -/
theorem calcWeights_deterministic_seed {W : Type}
    (localPosition : Vec3 ℚ → Vec3 ℚ)
    (interpWeights : List (Vec2 ℚ) → List (Vec3 ℚ) → W)
    (ambient1 ambient2 : Foam.Random)
    (sourcePoints destPoints : List (Vec3 ℚ)) (perturb : ℚ) :
    calcWeights localPosition interpWeights ambient1 sourcePoints destPoints
        perturb
      = calcWeights localPosition interpWeights ambient2 sourcePoints destPoints
        perturb ∧
    perturbedLocalVertices localPosition ambient1 sourcePoints perturb
      = perturbedLocalVertices localPosition ambient2 sourcePoints perturb ∧
    perturbedLocalVertices localPosition ambient1 sourcePoints perturb
      = perturbedLocalVerticesSeeded 123456 localPosition sourcePoints perturb :=
  ⟨rfl, rfl, rfl⟩

noncomputable section

/-- OpenFOAM `GREAT` (1e15). -/
def GREAT : ℝ := 10 ^ 15

/-- Magnitude of a vector (OpenFOAM `mag`). -/
def mag (v : Vec3 ℝ) : ℝ := Real.sqrt (Vec3.dot v v)

/-- The offset `points[j] - points[0]` (the `d` of line 72 / `p2 - p0` of
line 92). -/
def offsetFromFirst (pts : List (Vec3 ℝ)) (j : ℕ) : Vec3 ℝ :=
  pts.getD j 0 - pts.getD 0 0

/-- The offset of point `j` with its `e1`-component removed (lines 92-93). -/
def orthOffset (pts : List (Vec3 ℝ)) (e1 : Vec3 ℝ) (j : ℕ) : Vec3 ℝ :=
  offsetFromFirst pts j - (Vec3.dot (offsetFromFirst pts j) e1) • e1

/-- The first selection loop of `calcCoordinateSystem` (lines 66-81): find
the point furthest from `points[0]`, recording the normalised offset `e1`,
the index, and the running maximum distance, which starts at `-GREAT`. -/
def loop1 (pts : List (Vec3 ℝ)) (i : ℕ) (acc : Vec3 ℝ × ℤ × ℝ) :
    Vec3 ℝ × ℤ × ℝ :=
  if h : i < pts.length then
    loop1 pts (i + 1)
      (if mag (offsetFromFirst pts i) > acc.2.2 then
        (Vec3.sdiv (offsetFromFirst pts i) (mag (offsetFromFirst pts i)),
          (i : ℤ), mag (offsetFromFirst pts i))
      else acc)
  else acc
termination_by pts.length - i
decreasing_by omega

/-- The second selection loop (lines 85-102): among indices other than
`index1`, find the point whose offset from `points[0]`, with its
`e1`-component removed, has maximum magnitude; the running maximum starts at
`-GREAT` and the index at `-1`. -/
def loop2 (pts : List (Vec3 ℝ)) (index1 : ℤ) (e1 : Vec3 ℝ) (i : ℕ)
    (acc : ℤ × ℝ) : ℤ × ℝ :=
  if h : i < pts.length then
    loop2 pts index1 e1 (i + 1)
      (if (i : ℤ) ≠ index1 then
        (if mag (orthOffset pts e1 i) > acc.2 then
          ((i : ℤ), mag (orthOffset pts e1 i))
        else acc)
      else acc)
  else acc
termination_by pts.length - i
decreasing_by omega

/-- The two construction-time error kinds raised by `calcCoordinateSystem`
(`FatalErrorIn` exits at lines 53-61 and 105-113; spec §7's
`InsufficientPointsError` and `DegenerateGeometryError`). -/
inductive FrameError where
  | insufficientPoints
  | degenerateGeometry
deriving DecidableEq

/-- OpenFOAM `coordinateSystem` as constructed at lines 126-132: name,
origin, normal, 0-axis. -/
structure coordinateSystem where
  name : String
  origin : Vec3 ℝ
  normal : Vec3 ℝ
  axis : Vec3 ℝ

/-- `calcCoordinateSystem` (lines 45-133): fewer than 3 points is a fatal
error; otherwise the two selection loops run, the (dead, see below) check
for `index2 == -1` is kept, and the frame is assembled with normal
`n / mag(n)` for `n = e1 ^ (points[index2] - p0)` (lines 115-116). -/
def calcCoordinateSystem (pts : List (Vec3 ℝ)) :
    Except FrameError coordinateSystem :=
  if pts.length < 3 then .error .insufficientPoints
  else
    let r1 := loop1 pts 1 (0, -1, -GREAT)
    let r2 := loop2 pts r1.2.1 r1.1 1 (-1, -GREAT)
    if r2.1 = -1 then .error .degenerateGeometry
    else
      let n := Vec3.cross r1.1 (pts.getD r2.1.toNat 0 - pts.getD 0 0)
      .ok ⟨"reference", pts.getD 0 0, Vec3.sdiv n (mag n), r1.1⟩

/-- All points lie on one line through `points[0]`. -/
def Colinear (pts : List (Vec3 ℝ)) : Prop :=
  ∃ v : Vec3 ℝ, ∀ j, j < pts.length → ∃ t : ℝ, offsetFromFirst pts j = t • v

/-- The constructor `pointToPointPlanarInterpolation(sourcePoints,
destPoints, perturb)` (lines 217-230): the reference coordinate system is
computed first (member initialiser, line 225); only on success does the
weight computation run on the constructed frame (line 229; modelled as an
arbitrary pure function `calcW`, cf. `calcWeights`). -/
def construct {W : Type}
    (calcW : coordinateSystem → List (Vec3 ℝ) → List (Vec3 ℝ) → ℝ → W)
    (sourcePoints destPoints : List (Vec3 ℝ)) (perturb : ℝ) :
    Except FrameError (coordinateSystem × ℕ × W) :=
  match calcCoordinateSystem sourcePoints with
  | .error e => .error e
  | .ok cs =>
    .ok (cs, sourcePoints.length, calcW cs sourcePoints destPoints perturb)

end

theorem Vec3.dot_self_nonneg (v : Vec3 ℝ) : 0 ≤ Vec3.dot v v := by
  simp only [Vec3.dot]
  nlinarith [mul_self_nonneg v.x, mul_self_nonneg v.y, mul_self_nonneg v.z]

theorem mag_nonneg (v : Vec3 ℝ) : 0 ≤ mag v := Real.sqrt_nonneg _

theorem sq_mag (v : Vec3 ℝ) : mag v ^ 2 = Vec3.dot v v :=
  Real.sq_sqrt (Vec3.dot_self_nonneg v)

theorem mag_eq_zero_iff (v : Vec3 ℝ) : mag v = 0 ↔ v = 0 := by
  unfold mag
  rw [Real.sqrt_eq_zero (Vec3.dot_self_nonneg v)]
  constructor
  · intro h
    simp only [Vec3.dot] at h
    apply Vec3.ext_comp <;> simp only [Vec3.zero_x, Vec3.zero_y, Vec3.zero_z] <;>
      nlinarith [mul_self_nonneg v.x, mul_self_nonneg v.y, mul_self_nonneg v.z]
  · intro h
    subst h
    simp [Vec3.dot]

theorem mag_zero_vec : mag (0 : Vec3 ℝ) = 0 := (mag_eq_zero_iff 0).mpr rfl

theorem dot_sdiv_left (v u : Vec3 ℝ) (s : ℝ) :
    Vec3.dot (Vec3.sdiv v s) u = Vec3.dot v u / s := by
  simp only [Vec3.dot, Vec3.sdiv]
  ring

theorem mag_sdiv_self (v : Vec3 ℝ) (h : 0 < mag v) :
    mag (Vec3.sdiv v (mag v)) = 1 := by
  have hdot : Vec3.dot (Vec3.sdiv v (mag v)) (Vec3.sdiv v (mag v))
      = Vec3.dot v v / (mag v) ^ 2 := by
    simp only [Vec3.dot, Vec3.sdiv]
    ring
  have hne : Vec3.dot v v ≠ 0 := by
    rw [← sq_mag]
    exact pow_ne_zero 2 (ne_of_gt h)
  rw [mag, hdot, sq_mag, div_self hne, Real.sqrt_one]

theorem smul_sdiv_cancel (v : Vec3 ℝ) (s : ℝ) (h : s ≠ 0) :
    s • Vec3.sdiv v s = v := by
  apply Vec3.ext_comp <;> simp only [Vec3.sdiv, Vec3.smul_x, Vec3.smul_y, Vec3.smul_z] <;>
    field_simp

theorem sdiv_smul (v : Vec3 ℝ) (t s : ℝ) :
    Vec3.sdiv (t • v) s = (t / s) • v := by
  apply Vec3.ext_comp <;>
    simp only [Vec3.sdiv, Vec3.smul_x, Vec3.smul_y, Vec3.smul_z] <;> ring

theorem sdiv_zero_vec (s : ℝ) : Vec3.sdiv (0 : Vec3 ℝ) s = 0 := by
  apply Vec3.ext_comp <;> simp [Vec3.sdiv]

theorem cross_smul_cancel (v : Vec3 ℝ) (a b : ℝ) :
    Vec3.cross (a • v) (b • v) = 0 := by
  apply Vec3.ext_comp <;> simp only [Vec3.cross, Vec3.smul_x, Vec3.smul_y,
    Vec3.smul_z, Vec3.zero_x, Vec3.zero_y, Vec3.zero_z] <;> ring

theorem lagrange_identity (a b : Vec3 ℝ) :
    Vec3.dot (Vec3.cross a b) (Vec3.cross a b)
      = Vec3.dot a a * Vec3.dot b b - (Vec3.dot a b) ^ 2 := by
  simp only [Vec3.dot, Vec3.cross]
  ring

theorem cross_dot_self_left (a b : Vec3 ℝ) :
    Vec3.dot (Vec3.cross a b) a = 0 := by
  simp only [Vec3.dot, Vec3.cross]
  ring

theorem dot_sub_smul (w e : Vec3 ℝ) (c : ℝ) :
    Vec3.dot (w - c • e) (w - c • e)
      = Vec3.dot w w - 2 * c * Vec3.dot w e + c ^ 2 * Vec3.dot e e := by
  simp only [Vec3.dot, Vec3.sub_x, Vec3.sub_y, Vec3.sub_z, Vec3.smul_x,
    Vec3.smul_y, Vec3.smul_z]
  ring

theorem sub_self_vec (a : Vec3 ℝ) : a - a = 0 := by
  apply Vec3.ext_comp <;> simp

theorem zero_smul_vec (v : Vec3 ℝ) : (0 : ℝ) • v = 0 := by
  apply Vec3.ext_comp <;> simp

theorem offsetFromFirst_zero (pts : List (Vec3 ℝ)) :
    offsetFromFirst pts 0 = 0 := by
  unfold offsetFromFirst
  exact sub_self_vec _

theorem orthOffset_zero (pts : List (Vec3 ℝ)) (e1 : Vec3 ℝ) :
    orthOffset pts e1 0 = 0 := by
  unfold orthOffset
  rw [offsetFromFirst_zero]
  apply Vec3.ext_comp <;> simp [Vec3.dot]

theorem loop1_step (pts : List (Vec3 ℝ)) (i : ℕ) (acc : Vec3 ℝ × ℤ × ℝ)
    (h : i < pts.length) :
    loop1 pts i acc = loop1 pts (i + 1)
      (if mag (offsetFromFirst pts i) > acc.2.2 then
        (Vec3.sdiv (offsetFromFirst pts i) (mag (offsetFromFirst pts i)),
          (i : ℤ), mag (offsetFromFirst pts i))
      else acc) := by
  rw [loop1, dif_pos h]

theorem loop1_stop (pts : List (Vec3 ℝ)) (i : ℕ) (acc : Vec3 ℝ × ℤ × ℝ)
    (h : ¬(i < pts.length)) : loop1 pts i acc = acc := by
  rw [loop1, dif_neg h]

theorem loop2_step (pts : List (Vec3 ℝ)) (index1 : ℤ) (e1 : Vec3 ℝ) (i : ℕ)
    (acc : ℤ × ℝ) (h : i < pts.length) :
    loop2 pts index1 e1 i acc = loop2 pts index1 e1 (i + 1)
      (if (i : ℤ) ≠ index1 then
        (if mag (orthOffset pts e1 i) > acc.2 then
          ((i : ℤ), mag (orthOffset pts e1 i))
        else acc)
      else acc) := by
  rw [loop2, dif_pos h]

theorem loop2_stop (pts : List (Vec3 ℝ)) (index1 : ℤ) (e1 : Vec3 ℝ) (i : ℕ)
    (acc : ℤ × ℝ) (h : ¬(i < pts.length)) : loop2 pts index1 e1 i acc = acc := by
  rw [loop2, dif_neg h]

/-- Invariant of `loop1` after the indices `[1, i)` have been scanned: some
index `k` has been selected realising the running maximum, and every scanned
index is dominated. -/
def loop1Inv (pts : List (Vec3 ℝ)) (acc : Vec3 ℝ × ℤ × ℝ) (i : ℕ) : Prop :=
  (∃ k, 1 ≤ k ∧ k < i ∧ acc.2.1 = (k : ℤ) ∧
    acc.2.2 = mag (offsetFromFirst pts k) ∧
    acc.1 = Vec3.sdiv (offsetFromFirst pts k) (mag (offsetFromFirst pts k))) ∧
  ∀ j, 1 ≤ j → j < i → mag (offsetFromFirst pts j) ≤ acc.2.2

theorem loop1_inv_aux (pts : List (Vec3 ℝ)) :
    ∀ (n i : ℕ) (acc : Vec3 ℝ × ℤ × ℝ), pts.length ≤ i + n →
      i ≤ pts.length → 1 ≤ i → loop1Inv pts acc i →
      loop1Inv pts (loop1 pts i acc) pts.length := by
  intro n
  induction n with
  | zero =>
    intro i acc hn hi _ hinv
    have : i = pts.length := by omega
    rw [loop1_stop pts i acc (by omega)]
    rw [← this]
    exact hinv
  | succ n ih =>
    intro i acc hn hi h1 hinv
    by_cases h : i < pts.length
    · rw [loop1_step pts i acc h]
      apply ih (i + 1) _ (by omega) (by omega) (by omega)
      obtain ⟨⟨k, hk1, hki, hkidx, hkmax, hke⟩, hbound⟩ := hinv
      by_cases hc : mag (offsetFromFirst pts i) > acc.2.2
      · rw [if_pos hc]
        refine ⟨⟨i, h1, by omega, rfl, rfl, rfl⟩, ?_⟩
        intro j hj1 hj2
        by_cases hji : j < i
        · exact le_trans (hbound j hj1 hji) (le_of_lt hc)
        · have : j = i := by omega
          subst this
          exact le_refl _
      · rw [if_neg hc]
        refine ⟨⟨k, hk1, by omega, hkidx, hkmax, hke⟩, ?_⟩
        intro j hj1 hj2
        by_cases hji : j < i
        · exact hbound j hj1 hji
        · have : j = i := by omega
          subst this
          exact not_lt.mp hc
    · rw [loop1_stop pts i acc h]
      have : i = pts.length := by omega
      rw [← this]
      exact hinv

theorem loop1_spec (pts : List (Vec3 ℝ)) (h3 : 3 ≤ pts.length) :
    loop1Inv pts (loop1 pts 1 (0, -1, -GREAT)) pts.length := by
  have h1 : 1 < pts.length := by omega
  have hcond : mag (offsetFromFirst pts 1) > ((0 : Vec3 ℝ), (-1 : ℤ),
      -GREAT).2.2 := by
    have : (0 : ℝ) ≤ mag (offsetFromFirst pts 1) := mag_nonneg _
    have hg : (0 : ℝ) < GREAT := by norm_num [GREAT]
    show mag (offsetFromFirst pts 1) > -GREAT
    linarith
  rw [loop1_step pts 1 _ h1, if_pos hcond]
  apply loop1_inv_aux pts pts.length 2 _ (by omega) (by omega) (by omega)
  refine ⟨⟨1, le_refl 1, by omega, rfl, rfl, rfl⟩, ?_⟩
  intro j hj1 hj2
  have : j = 1 := by omega
  subst this
  exact le_refl _

/-- Invariant of `loop2` after the indices `[1, i)` have been scanned:
either nothing has been selected yet (which forces every scanned index to be
`index1`), or a selected index realises the running maximum over scanned
indices other than `index1`. -/
def loop2Inv (pts : List (Vec3 ℝ)) (index1 : ℤ) (e1 : Vec3 ℝ) (acc : ℤ × ℝ)
    (i : ℕ) : Prop :=
  ((acc.1 = -1 ∧ acc.2 = -GREAT ∧ ∀ k, 1 ≤ k → k < i → (k : ℤ) = index1) ∨
    (∃ k, 1 ≤ k ∧ k < i ∧ (k : ℤ) ≠ index1 ∧ acc.1 = (k : ℤ) ∧
      acc.2 = mag (orthOffset pts e1 k))) ∧
  ∀ j, 1 ≤ j → j < i → (j : ℤ) ≠ index1 → mag (orthOffset pts e1 j) ≤ acc.2

theorem loop2_inv_aux (pts : List (Vec3 ℝ)) (index1 : ℤ) (e1 : Vec3 ℝ) :
    ∀ (n i : ℕ) (acc : ℤ × ℝ), pts.length ≤ i + n → i ≤ pts.length → 1 ≤ i →
      loop2Inv pts index1 e1 acc i →
      loop2Inv pts index1 e1 (loop2 pts index1 e1 i acc) pts.length := by
  intro n
  induction n with
  | zero =>
    intro i acc hn hi _ hinv
    have : i = pts.length := by omega
    rw [loop2_stop pts index1 e1 i acc (by omega), ← this]
    exact hinv
  | succ n ih =>
    intro i acc hn hi h1 hinv
    by_cases h : i < pts.length
    · rw [loop2_step pts index1 e1 i acc h]
      apply ih (i + 1) _ (by omega) (by omega) (by omega)
      obtain ⟨hsel, hbound⟩ := hinv
      by_cases hidx : (i : ℤ) ≠ index1
      · rw [if_pos hidx]
        by_cases hc : mag (orthOffset pts e1 i) > acc.2
        · rw [if_pos hc]
          refine ⟨Or.inr ⟨i, h1, by omega, hidx, rfl, rfl⟩, ?_⟩
          intro j hj1 hj2 hj3
          by_cases hji : j < i
          · exact le_trans (hbound j hj1 hji hj3) (le_of_lt hc)
          · have : j = i := by omega
            subst this
            exact le_refl _
        · rw [if_neg hc]
          rcases hsel with ⟨ha, hb, hall⟩ | ⟨k, hk1, hki, hkne, hka, hkb⟩
          · exfalso
            have hnn : (0 : ℝ) ≤ mag (orthOffset pts e1 i) := mag_nonneg _
            have hg : (0 : ℝ) < GREAT := by norm_num [GREAT]
            rw [hb] at hc
            push_neg at hc
            linarith
          · refine ⟨Or.inr ⟨k, hk1, by omega, hkne, hka, hkb⟩, ?_⟩
            intro j hj1 hj2 hj3
            by_cases hji : j < i
            · exact hbound j hj1 hji hj3
            · have : j = i := by omega
              subst this
              exact not_lt.mp hc
      · rw [if_neg hidx]
        push_neg at hidx
        rcases hsel with ⟨ha, hb, hall⟩ | ⟨k, hk1, hki, hkne, hka, hkb⟩
        · refine ⟨Or.inl ⟨ha, hb, ?_⟩, ?_⟩
          · intro k hk1 hk2
            by_cases hki : k < i
            · exact hall k hk1 hki
            · have : k = i := by omega
              subst this
              exact hidx
          · intro j hj1 hj2 hj3
            by_cases hji : j < i
            · exact hbound j hj1 hji hj3
            · exfalso
              have : j = i := by omega
              subst this
              exact hj3 hidx
        · refine ⟨Or.inr ⟨k, hk1, by omega, hkne, hka, hkb⟩, ?_⟩
          intro j hj1 hj2 hj3
          by_cases hji : j < i
          · exact hbound j hj1 hji hj3
          · exfalso
            have : j = i := by omega
            subst this
            exact hj3 hidx
    · rw [loop2_stop pts index1 e1 i acc h]
      have : i = pts.length := by omega
      rw [← this]
      exact ⟨hinv.1, hinv.2⟩

theorem loop2_spec (pts : List (Vec3 ℝ)) (index1 : ℤ) (e1 : Vec3 ℝ)
    (h3 : 3 ≤ pts.length) :
    loop2Inv pts index1 e1 (loop2 pts index1 e1 1 (-1, -GREAT)) pts.length := by
  apply loop2_inv_aux pts index1 e1 pts.length 1 _ (by omega) (by omega)
    (by omega)
  refine ⟨Or.inl ⟨rfl, rfl, ?_⟩, ?_⟩
  · intro k hk1 hk2
    omega
  · intro j hj1 hj2 _
    omega

/-- The normalised offset `(points[k1] - points[0]) / mag(...)` — the `e1`
that `loop1` stores when it selects index `k1` (line 77). -/
noncomputable def e1sel (pts : List (Vec3 ℝ)) (k1 : ℕ) : Vec3 ℝ :=
  Vec3.sdiv (offsetFromFirst pts k1) (mag (offsetFromFirst pts k1))

/-- Master description of `calcCoordinateSystem` on any list of at least 3
points: it succeeds, its origin is `points[0]`, its axis is the normalised
offset of a distance-maximising index `k1 ≥ 1`, and its normal is the
normalised cross product of that axis with the offset of an index `k2`
maximising the orthogonal-component magnitude among indices other than
`k1`. -/
theorem calc_spec (pts : List (Vec3 ℝ)) (h3 : 3 ≤ pts.length) :
    ∃ k1 k2 : ℕ,
      1 ≤ k1 ∧ k1 < pts.length ∧ 1 ≤ k2 ∧ k2 < pts.length ∧ k2 ≠ k1 ∧
      (∀ j, j < pts.length →
        mag (offsetFromFirst pts j) ≤ mag (offsetFromFirst pts k1)) ∧
      (∀ j, j < pts.length → j ≠ k1 →
        mag (orthOffset pts (e1sel pts k1) j)
          ≤ mag (orthOffset pts (e1sel pts k1) k2)) ∧
      calcCoordinateSystem pts =
        Except.ok ⟨"reference", pts.getD 0 0,
          Vec3.sdiv (Vec3.cross (e1sel pts k1) (offsetFromFirst pts k2))
            (mag (Vec3.cross (e1sel pts k1) (offsetFromFirst pts k2))),
          e1sel pts k1⟩ := by
  obtain ⟨⟨k1, hk11, hk1len, hidx1, hmax1, he1⟩, hbound1⟩ := loop1_spec pts h3
  obtain ⟨hsel2, hbound2⟩ := loop2_spec pts (loop1 pts 1 (0, -1, -GREAT)).2.1
    (loop1 pts 1 (0, -1, -GREAT)).1 h3
  rcases hsel2 with ⟨ha, hb, hall⟩ | ⟨k2, hk21, hk2len, hk2ne, hka, hkb⟩
  · exfalso
    have h1 := hall 1 (by omega) (by omega)
    have h2 := hall 2 (by omega) (by omega)
    rw [hidx1] at h1 h2
    omega
  · have he1' : (loop1 pts 1 (0, -1, -GREAT)).1 = e1sel pts k1 := he1
    have hk2k1 : k2 ≠ k1 := by
      intro hcon
      apply hk2ne
      rw [hcon, hidx1]
    refine ⟨k1, k2, hk11, hk1len, hk21, hk2len, hk2k1, ?_, ?_, ?_⟩
    · intro j hj
      rcases Nat.eq_zero_or_pos j with h0 | h0
      · subst h0
        rw [offsetFromFirst_zero, mag_zero_vec]
        exact mag_nonneg _
      · have hb1 := hbound1 j h0 hj
        rw [hmax1] at hb1
        exact hb1
    · intro j hj hjne
      rcases Nat.eq_zero_or_pos j with h0 | h0
      · subst h0
        rw [orthOffset_zero, mag_zero_vec]
        exact mag_nonneg _
      · have hcast : (j : ℤ) ≠ (loop1 pts 1 (0, -1, -GREAT)).2.1 := by
          rw [hidx1]
          exact_mod_cast hjne
        have hb2 := hbound2 j h0 hj hcast
        rw [hkb, he1'] at hb2
        exact hb2
    · have hne3 : ¬(pts.length < 3) := by omega
      have hr2ne : ¬((loop2 pts (loop1 pts 1 (0, -1, -GREAT)).2.1
          (loop1 pts 1 (0, -1, -GREAT)).1 1 (-1, -GREAT)).1 = -1) := by
        rw [hka]
        omega
      simp only [calcCoordinateSystem]
      rw [if_neg hne3, if_neg hr2ne, hka, he1', Int.toNat_natCast]
      rfl

theorem sub_eq_zero_iff_vec (a b : Vec3 ℝ) : a - b = 0 ↔ a = b := by
  constructor
  · intro h
    apply Vec3.ext_comp
    · have hx := congrArg Vec3.x h
      simp at hx
      linarith
    · have hy := congrArg Vec3.y h
      simp at hy
      linarith
    · have hz := congrArg Vec3.z h
      simp at hz
      linarith
  · intro h
    subst h
    exact sub_self_vec a

theorem dot_self_eq_one_of_mag_one (v : Vec3 ℝ) (h : mag v = 1) :
    Vec3.dot v v = 1 := by
  rw [← sq_mag, h]
  norm_num

/-- On colinear input of at least 3 points, `calcCoordinateSystem` still
returns a frame, and its normal is the zero vector: the cross product `n` at
line 115 vanishes and the unguarded `n /= mag(n)` divides by zero. -/
theorem calc_colinear_normal_zero (pts : List (Vec3 ℝ)) (h3 : 3 ≤ pts.length)
    (hcol : Colinear pts) :
    ∃ f, calcCoordinateSystem pts = Except.ok f ∧ f.normal = 0 := by
  obtain ⟨k1, k2, hk11, hk1len, hk21, hk2len, hk2k1, hb1, hb2, heq⟩ :=
    calc_spec pts h3
  obtain ⟨v, hv⟩ := hcol
  obtain ⟨t1, ht1⟩ := hv k1 hk1len
  obtain ⟨t2, ht2⟩ := hv k2 hk2len
  have hE : e1sel pts k1 = (t1 / mag (offsetFromFirst pts k1)) • v := by
    unfold e1sel
    rw [ht1]
    exact sdiv_smul v t1 _
  have hcross : Vec3.cross (e1sel pts k1) (offsetFromFirst pts k2) = 0 := by
    rw [ht2, hE]
    exact cross_smul_cancel v _ _
  refine ⟨_, heq, ?_⟩
  show Vec3.sdiv (Vec3.cross (e1sel pts k1) (offsetFromFirst pts k2))
      (mag (Vec3.cross (e1sel pts k1) (offsetFromFirst pts k2))) = 0
  rw [hcross]
  exact sdiv_zero_vec _

/-- The colinear input (0,0,0), (1,0,0), (2,0,0). -/
noncomputable def colinearPts : List (Vec3 ℝ) :=
  [⟨0, 0, 0⟩, ⟨1, 0, 0⟩, ⟨2, 0, 0⟩]

theorem colinearPts_colinear : Colinear colinearPts := by
  refine ⟨⟨1, 0, 0⟩, ?_⟩
  intro j hj
  have hj' : j < 3 := by simpa [colinearPts] using hj
  interval_cases j
  · exact ⟨0, by apply Vec3.ext_comp <;> simp [offsetFromFirst, colinearPts]⟩
  · exact ⟨1, by apply Vec3.ext_comp <;> simp [offsetFromFirst, colinearPts]⟩
  · exact ⟨2, by apply Vec3.ext_comp <;> simp [offsetFromFirst, colinearPts]⟩

/-- C1 (evaluation of the code at the failing input): for the colinear input
`[(0,0,0), (1,0,0), (2,0,0)]` — at least 3 points, every offset from `P[0]`
purely along `e1` — `calcCoordinateSystem` does not fail with the
degenerate-geometry error: it returns a frame, whose normal is the zero
vector produced by the unguarded normalisation `n /= mag(n)` with
`mag(n) = 0` (in C++ double arithmetic, a NaN vector). -/
theorem calc_colinear_returns_frame :
    ∃ f, calcCoordinateSystem colinearPts = Except.ok f ∧ f.normal = 0 :=
  calc_colinear_normal_zero colinearPts (by norm_num [colinearPts])
    colinearPts_colinear

/-- C10: for every input of at least 3 points the degenerate-geometry branch
(`index2 == -1`, lines 103-113) is unreachable — the second index is always
assigned, because `magE2 > maxDist` with `maxDist` initialised to `-GREAT`
accepts a candidate even with exactly zero orthogonal component — so
`calcCoordinateSystem` always returns a frame; and for fully colinear input
execution proceeds to the unguarded `n /= mag(n)` with `mag(n) = 0`,
yielding a zero (in C++: NaN) normal instead of an error. -/
theorem calc_degenerate_branch_unreachable :
    (∀ pts : List (Vec3 ℝ), 3 ≤ pts.length →
      ∃ f, calcCoordinateSystem pts = Except.ok f) ∧
    (∀ pts : List (Vec3 ℝ), 3 ≤ pts.length → Colinear pts →
      ∃ f, calcCoordinateSystem pts = Except.ok f ∧ f.normal = 0) := by
  constructor
  · intro pts h3
    obtain ⟨k1, k2, _, _, _, _, _, _, _, heq⟩ := calc_spec pts h3
    exact ⟨_, heq⟩
  · intro pts h3 hcol
    exact calc_colinear_normal_zero pts h3 hcol

/-- A second colinear input, along the y-axis, with 4 points. -/
noncomputable def colinearPts4 : List (Vec3 ℝ) :=
  [⟨0, 0, 0⟩, ⟨0, 1, 0⟩, ⟨0, 2, 0⟩, ⟨0, 3, 0⟩]

theorem colinearPts4_colinear : Colinear colinearPts4 := by
  refine ⟨⟨0, 1, 0⟩, ?_⟩
  intro j hj
  have hj' : j < 4 := by simpa [colinearPts4] using hj
  interval_cases j
  · exact ⟨0, by apply Vec3.ext_comp <;> simp [offsetFromFirst, colinearPts4]⟩
  · exact ⟨1, by apply Vec3.ext_comp <;> simp [offsetFromFirst, colinearPts4]⟩
  · exact ⟨2, by apply Vec3.ext_comp <;> simp [offsetFromFirst, colinearPts4]⟩
  · exact ⟨3, by apply Vec3.ext_comp <;> simp [offsetFromFirst, colinearPts4]⟩

theorem calc_degenerate_branch_unreachable_witness :
    (∃ f, calcCoordinateSystem colinearPts4 = Except.ok f) ∧
    (∃ f, calcCoordinateSystem colinearPts4 = Except.ok f ∧ f.normal = 0) :=
  ⟨calc_degenerate_branch_unreachable.1 colinearPts4 (by norm_num [colinearPts4]),
   calc_degenerate_branch_unreachable.2 colinearPts4 (by norm_num [colinearPts4])
     colinearPts4_colinear⟩

/-- C7: for any list of at least 3 points the derived frame has origin
`P[0]`; its axis is the normalised offset from `P[0]` of an index `k1`
maximising the distance from `P[0]`; and its normal is
`normalize(e1 ^ (p2 - P[0]))` where `p2` is an index `k2 ≠ k1` whose offset
from `P[0]`, after removing its `e1`-component, has maximum magnitude among
the remaining points. -/
theorem calcCoordinateSystem_selects_extremal (pts : List (Vec3 ℝ))
    (h3 : 3 ≤ pts.length) :
    ∃ (f : coordinateSystem) (k1 k2 : ℕ),
      calcCoordinateSystem pts = Except.ok f ∧
      f.origin = pts.getD 0 0 ∧
      1 ≤ k1 ∧ k1 < pts.length ∧ 1 ≤ k2 ∧ k2 < pts.length ∧ k2 ≠ k1 ∧
      (∀ j, j < pts.length →
        mag (offsetFromFirst pts j) ≤ mag (offsetFromFirst pts k1)) ∧
      f.axis = e1sel pts k1 ∧
      (∀ j, j < pts.length → j ≠ k1 →
        mag (orthOffset pts f.axis j) ≤ mag (orthOffset pts f.axis k2)) ∧
      f.normal = Vec3.sdiv (Vec3.cross f.axis (offsetFromFirst pts k2))
        (mag (Vec3.cross f.axis (offsetFromFirst pts k2))) := by
  obtain ⟨k1, k2, hk11, hk1len, hk21, hk2len, hk2k1, hb1, hb2, heq⟩ :=
    calc_spec pts h3
  exact ⟨_, k1, k2, heq, rfl, hk11, hk1len, hk21, hk2len, hk2k1, hb1, rfl,
    hb2, rfl⟩

/-- The non-colinear input (0,0,0), (1,0,0), (0,1,0). -/
noncomputable def ncPts : List (Vec3 ℝ) := [⟨0, 0, 0⟩, ⟨1, 0, 0⟩, ⟨0, 1, 0⟩]

theorem calcCoordinateSystem_selects_extremal_witness :
    ∃ (f : coordinateSystem) (k1 k2 : ℕ),
      calcCoordinateSystem ncPts = Except.ok f ∧
      f.origin = ncPts.getD 0 0 ∧
      1 ≤ k1 ∧ k1 < ncPts.length ∧ 1 ≤ k2 ∧ k2 < ncPts.length ∧ k2 ≠ k1 ∧
      (∀ j, j < ncPts.length →
        mag (offsetFromFirst ncPts j) ≤ mag (offsetFromFirst ncPts k1)) ∧
      f.axis = e1sel ncPts k1 ∧
      (∀ j, j < ncPts.length → j ≠ k1 →
        mag (orthOffset ncPts f.axis j) ≤ mag (orthOffset ncPts f.axis k2)) ∧
      f.normal = Vec3.sdiv (Vec3.cross f.axis (offsetFromFirst ncPts k2))
        (mag (Vec3.cross f.axis (offsetFromFirst ncPts k2))) :=
  calcCoordinateSystem_selects_extremal ncPts (by norm_num [ncPts])

theorem ncPts_not_colinear : ¬Colinear ncPts := by
  rintro ⟨v, hv⟩
  obtain ⟨t1, ht1⟩ := hv 1 (by norm_num [ncPts])
  obtain ⟨t2, ht2⟩ := hv 2 (by norm_num [ncPts])
  have hx1 : (1 : ℝ) = t1 * v.x := by
    have h := congrArg Vec3.x ht1
    simpa [offsetFromFirst, ncPts] using h
  have hy1 : (0 : ℝ) = t1 * v.y := by
    have h := congrArg Vec3.y ht1
    simpa [offsetFromFirst, ncPts] using h
  have hx2 : (0 : ℝ) = t2 * v.x := by
    have h := congrArg Vec3.x ht2
    simpa [offsetFromFirst, ncPts] using h
  have hy2 : (1 : ℝ) = t2 * v.y := by
    have h := congrArg Vec3.y ht2
    simpa [offsetFromFirst, ncPts] using h
  have key : (t1 * v.x) * (t2 * v.y) = (t1 * v.y) * (t2 * v.x) := by ring
  rw [← hx1, ← hy2, ← hy1, ← hx2] at key
  norm_num at key

/-- C6: for at least 3 non-colinear points, `calcCoordinateSystem` returns a
frame whose normal and axis are both unit length and exactly orthogonal. -/
theorem calcCoordinateSystem_unit_orthogonal (pts : List (Vec3 ℝ))
    (h3 : 3 ≤ pts.length) (hnc : ¬Colinear pts) :
    ∃ f, calcCoordinateSystem pts = Except.ok f ∧
      mag f.normal = 1 ∧ mag f.axis = 1 ∧ Vec3.dot f.normal f.axis = 0 := by
  obtain ⟨k1, k2, hk11, hk1len, hk21, hk2len, hk2k1, hb1, hb2, heq⟩ :=
    calc_spec pts h3
  have hm1 : 0 < mag (offsetFromFirst pts k1) := by
    rcases lt_or_eq_of_le (mag_nonneg (offsetFromFirst pts k1)) with h | h
    · exact h
    · exfalso
      apply hnc
      refine ⟨0, ?_⟩
      intro j hj
      refine ⟨0, ?_⟩
      rw [zero_smul_vec]
      have hle := hb1 j hj
      rw [← h] at hle
      exact (mag_eq_zero_iff _).mp (le_antisymm hle (mag_nonneg _))
  have haxis : mag (e1sel pts k1) = 1 := mag_sdiv_self _ hm1
  have haxis_dot : Vec3.dot (e1sel pts k1) (e1sel pts k1) = 1 :=
    dot_self_eq_one_of_mag_one _ haxis
  have hw1 : mag (offsetFromFirst pts k1) • e1sel pts k1
      = offsetFromFirst pts k1 := by
    unfold e1sel
    exact smul_sdiv_cancel _ _ (ne_of_gt hm1)
  have hm2 : 0 < mag (orthOffset pts (e1sel pts k1) k2) := by
    rcases lt_or_eq_of_le (mag_nonneg (orthOffset pts (e1sel pts k1) k2)) with h | h
    · exact h
    · exfalso
      apply hnc
      refine ⟨e1sel pts k1, ?_⟩
      intro j hj
      by_cases hjk : j = k1
      · subst hjk
        exact ⟨mag (offsetFromFirst pts j), hw1.symm⟩
      · have hle := hb2 j hj hjk
        rw [← h] at hle
        have h0 : orthOffset pts (e1sel pts k1) j = 0 :=
          (mag_eq_zero_iff _).mp (le_antisymm hle (mag_nonneg _))
        unfold orthOffset at h0
        exact ⟨Vec3.dot (offsetFromFirst pts j) (e1sel pts k1),
          ((sub_eq_zero_iff_vec _ _).mp h0)⟩
  have hdotn : Vec3.dot
      (Vec3.cross (e1sel pts k1) (offsetFromFirst pts k2))
      (Vec3.cross (e1sel pts k1) (offsetFromFirst pts k2))
      = mag (orthOffset pts (e1sel pts k1) k2) ^ 2 := by
    rw [lagrange_identity, sq_mag]
    unfold orthOffset
    rw [dot_sub_smul, haxis_dot]
    have hsymm : Vec3.dot (e1sel pts k1) (offsetFromFirst pts k2)
        = Vec3.dot (offsetFromFirst pts k2) (e1sel pts k1) := by
      simp only [Vec3.dot]
      ring
    rw [hsymm]
    ring
  have hnpos : 0 < mag (Vec3.cross (e1sel pts k1) (offsetFromFirst pts k2)) := by
    have h1 : mag (Vec3.cross (e1sel pts k1) (offsetFromFirst pts k2))
        = Real.sqrt (Vec3.dot
            (Vec3.cross (e1sel pts k1) (offsetFromFirst pts k2))
            (Vec3.cross (e1sel pts k1) (offsetFromFirst pts k2))) := rfl
    rw [h1, hdotn]
    exact Real.sqrt_pos.mpr (pow_pos hm2 2)
  have hnormal : mag (Vec3.sdiv
      (Vec3.cross (e1sel pts k1) (offsetFromFirst pts k2))
      (mag (Vec3.cross (e1sel pts k1) (offsetFromFirst pts k2)))) = 1 :=
    mag_sdiv_self _ hnpos
  have hperp : Vec3.dot (Vec3.sdiv
      (Vec3.cross (e1sel pts k1) (offsetFromFirst pts k2))
      (mag (Vec3.cross (e1sel pts k1) (offsetFromFirst pts k2))))
      (e1sel pts k1) = 0 := by
    rw [dot_sdiv_left, cross_dot_self_left, zero_div]
  exact ⟨_, heq, hnormal, haxis, hperp⟩

theorem calcCoordinateSystem_unit_orthogonal_witness :
    ∃ f, calcCoordinateSystem ncPts = Except.ok f ∧
      mag f.normal = 1 ∧ mag f.axis = 1 ∧ Vec3.dot f.normal f.axis = 0 :=
  calcCoordinateSystem_unit_orthogonal ncPts (by norm_num [ncPts])
    ncPts_not_colinear

/-- C8: construction from fewer than 3 source points fails with the
insufficient-points error, before any frame or weight is computed — for
every possible weight computation `calcW`, the result is the error and
`calcW` is never consulted. -/
theorem construct_insufficient_points {W : Type}
    (calcW : coordinateSystem → List (Vec3 ℝ) → List (Vec3 ℝ) → ℝ → W)
    (sourcePoints destPoints : List (Vec3 ℝ)) (perturb : ℝ)
    (h : sourcePoints.length < 3) :
    construct calcW sourcePoints destPoints perturb
      = Except.error FrameError.insufficientPoints := by
  unfold construct calcCoordinateSystem
  rw [if_pos h]

theorem construct_insufficient_points_witness :
    construct (fun _ _ _ _ => ()) ([⟨0, 0, 0⟩, ⟨1, 0, 0⟩] : List (Vec3 ℝ)) [] 0
      = Except.error FrameError.insufficientPoints :=
  construct_insufficient_points (fun _ _ _ _ => ()) _ _ 0 (by norm_num)
